import Mathlib

/-!
Verification of the document_indexer repository's text-segmentation engine
(`index_documents.py`), embedding validation (`src/embedder.py`), backfill
coordinator (`src/embedder.py` `main`), and retrieval ranker (`src/search.py`).

Strings are modelled as `List Char`; Python `str.strip`, `str.split` and the
sentence-splitting regex are given explicit executable models.  Rational
numbers stand in for the finite floats manipulated by the code.
-/

/-- The whitespace class of Python's `str.strip` / `str.split`
(ASCII subset: space, tab, newline, carriage return, vertical tab, form feed). -/
def pySpace (c : Char) : Bool :=
  c == ' ' || c == '\t' || c == '\n' || c == '\r' || c == '\x0b' || c == '\x0c'

/-- Python `str.strip()`: drop leading and trailing whitespace. -/
def pyStrip (s : List Char) : List Char :=
  ((s.dropWhile pySpace).reverse.dropWhile pySpace).reverse

/-- Helper for `pySplitWs`: accumulate the current word (reversed) while scanning. -/
def pySplitWsAux : List Char → List Char → List (List Char)
  | [], acc => if acc = [] then [] else [acc.reverse]
  | c :: rest, acc =>
    if pySpace c then
      if acc = [] then pySplitWsAux rest [] else acc.reverse :: pySplitWsAux rest []
    else
      pySplitWsAux rest (c :: acc)

/-- Python `str.split()` with no argument: maximal runs of non-whitespace. -/
def pySplitWs (s : List Char) : List (List Char) :=
  pySplitWsAux s []

/-- Python `" ".join(ws)`. -/
def joinSpace : List (List Char) → List Char
  | [] => []
  | [w] => w
  | w :: ws => w ++ ' ' :: joinSpace ws

/-! ## Fixed-size segmenter (`chunk_fixed_size` in `index_documents.py`)

The Python loop is

```
start = 0
while start < len(text):
    end = start + chunk_size
    chunk = text[start:end].strip()
    if chunk: chunks.append(chunk)
    start = end - overlap
    if start < 0: start = 0
```

modelled with explicit fuel so that non-termination is observable as `none`.
-/

/-- One update of the loop variable `start`:
`start = (start + chunk_size) - overlap`, clamped to `0` when negative. -/
def cfsStep (chunk_size overlap start : Nat) : Nat :=
  let n : Int := ((start + chunk_size : Nat) : Int) - (overlap : Int)
  if n < 0 then 0 else n.toNat

/-- The `chunk_fixed_size` loop with explicit fuel.  Returns `none` when the
fuel runs out before the loop guard `start < len(text)` fails. -/
def cfsLoopF (text : List Char) (chunk_size overlap : Nat) :
    Nat → Nat → Option (List (List Char))
  | 0, start => if start < text.length then none else some []
  | fuel + 1, start =>
    if start < text.length then
      let chunk := pyStrip ((text.drop start).take chunk_size)
      match cfsLoopF text chunk_size overlap fuel (cfsStep chunk_size overlap start) with
      | none => none
      | some rest => some (if chunk = [] then rest else chunk :: rest)
    else
      some []

/-- `chunk_fixed_size(text, chunk_size, overlap)`, run with fuel `len(text) + 1`
(enough whenever `overlap < chunk_size`; `none` reports fuel exhaustion). -/
def chunk_fixed_size (text : List Char) (chunk_size overlap : Nat) :
    Option (List (List Char)) :=
  cfsLoopF text chunk_size overlap (text.length + 1) 0

/-- The `chunk_fixed_size` loop, started at `start = 0`, terminates:
some amount of fuel suffices. -/
def cfsTerminates (text : List Char) (chunk_size overlap : Nat) : Prop :=
  ∃ fuel, (cfsLoopF text chunk_size overlap fuel 0).isSome

/-! ## Sentence-aware segmenter (`chunk_by_sentences` in `index_documents.py`) -/

/-- Sentence-ending punctuation recognised by the regex `(?<=[.!?])\s+`. -/
def isPunct (c : Char) : Bool :=
  c == '.' || c == '!' || c == '?'

/-- Whether the previously scanned character (head of the reversed accumulator)
is sentence-ending punctuation — the regex lookbehind `(?<=[.!?])`. -/
def prevPunct (acc : List Char) : Bool :=
  match acc with
  | p :: _ => isPunct p
  | [] => false

/-- Scanner for `re.split(r'(?<=[.!?])\s+', s)`: cut at each maximal whitespace
run whose first character is directly preceded by `.`, `!` or `?`; the
whitespace is consumed, the punctuation stays with the preceding piece.
The flag is true while consuming the remainder of a whitespace run after a
cut (the greedy `\s+`); `acc` holds the current piece, reversed. -/
def splitSentencesAux : Bool → List Char → List Char → List (List Char)
  | _, [], acc => [acc.reverse]
  | true, c :: rest, acc =>
    if pySpace c then splitSentencesAux true rest acc
    else splitSentencesAux false rest (c :: acc)
  | false, c :: rest, acc =>
    if pySpace c && prevPunct acc then
      acc.reverse :: splitSentencesAux true rest []
    else
      splitSentencesAux false rest (c :: acc)

/-- `re.split(r'(?<=[.!?])\s+', s)`. -/
def splitSentences (s : List Char) : List (List Char) :=
  splitSentencesAux false s []

/-- Fueled form of the force-split loop
`for i in range(0, len(s), max_chars): part = s[i:i+max_chars].strip()`,
keeping only non-empty parts.  Fuel `len s` suffices when `max_chars ≥ 1`. -/
def hardSplitF (max_chars : Nat) : Nat → List Char → List (List Char)
  | _, [] => []
  | 0, _ :: _ => []
  | fuel + 1, c :: rest =>
    let s := c :: rest
    let part := pyStrip (s.take max_chars)
    (if part = [] then [] else [part]) ++ hardSplitF max_chars fuel (s.drop max_chars)

/-- Force-splitting an oversized sentence into consecutive `max_chars`-wide
slices, each trimmed, empty ones dropped. -/
def hardSplit (max_chars : Nat) (s : List Char) : List (List Char) :=
  hardSplitF max_chars s.length s

/-- The greedy packing loop of `chunk_by_sentences`: state is the emitted
chunk list and the accumulator `current`. -/
def sbLoop (max_chars : Nat) :
    List (List Char) → List (List Char) → List Char → List (List Char)
  | [], chunks, current =>
    if current = [] then chunks else chunks ++ [pyStrip current]
  | s0 :: rest, chunks, current =>
    if pyStrip s0 = [] then
      sbLoop max_chars rest chunks current
    else if max_chars < (pyStrip s0).length then
      sbLoop max_chars rest
        ((if current = [] then chunks else chunks ++ [pyStrip current]) ++
          hardSplit max_chars (pyStrip s0)) []
    else if current ≠ [] ∧ max_chars < current.length + 1 + (pyStrip s0).length then
      sbLoop max_chars rest (chunks ++ [pyStrip current]) (pyStrip s0)
    else
      sbLoop max_chars rest chunks
        (if current = [] then pyStrip s0 else pyStrip (current ++ ' ' :: pyStrip s0))

/-- `chunk_by_sentences(text, max_chars)`: normalize whitespace, split into
sentences, pack greedily. -/
def chunk_by_sentences (text : List Char) (max_chars : Nat) : List (List Char) :=
  let cleaned := joinSpace (pySplitWs text)
  if cleaned = [] then []
  else sbLoop max_chars (splitSentences cleaned) [] []

/-! ## Embedding-client response validation (`embed_text` in `src/embedder.py`
and `src/search.py`; the two copies are identical)

```
vec = resp.embeddings[0].values         # may raise -> "unexpected response"
if not isinstance(vec, list) or len(vec) == 0: raise "empty/invalid"
return [float(x) for x in vec]          # may raise -> "non-numeric values"
```

Response elements are modelled symbolically: a finite number, one of the
non-finite floats (on which Python's `float()` succeeds), or a value on
which `float()` raises.
-/

/-- An element of the provider's raw response vector. -/
inductive RVal
  | fin (q : ℚ)
  | nan
  | inf
  | ninf
  | nonNum
deriving DecidableEq

/-- A Python float: finite (idealised as a rational) or non-finite. -/
inductive FVal
  | fin (q : ℚ)
  | nan
  | inf
  | ninf
deriving DecidableEq

/-- Python `float(x)`: succeeds on anything numeric — including `nan` and
`±inf` — and raises only on non-numeric values. -/
def RVal.toFloat? : RVal → Option FVal
  | .fin q => some (.fin q)
  | .nan => some .nan
  | .inf => some .inf
  | .ninf => some .ninf
  | .nonNum => none

/-- Whether a Python float is finite. -/
def FVal.finite : FVal → Bool
  | .fin _ => true
  | _ => false

/-- The list comprehension `[float(x) for x in vec]`: `none` as soon as one
conversion raises, otherwise the list of converted floats. -/
def mapFloat : List RVal → Option (List FVal)
  | [] => some []
  | x :: xs =>
    match RVal.toFloat? x, mapFloat xs with
    | some v, some vs => some (v :: vs)
    | _, _ => none

/-- The shape of `resp.embeddings[0].values`: the attribute chain may raise,
the value may fail `isinstance(vec, list)`, or it is a list of elements. -/
inductive EmbResp
  | malformed
  | notList
  | values (l : List RVal)
deriving DecidableEq

/-- `embed_text`'s validation of the provider response (the part after the
remote call), returning the error message raised or the converted vector. -/
def embed_text (resp : EmbResp) : Except String (List FVal) :=
  match resp with
  | .malformed => .error "Gemini returned unexpected embedding response"
  | .notList => .error "Gemini returned empty/invalid embedding vector"
  | .values vec =>
    if vec.length = 0 then .error "Gemini returned empty/invalid embedding vector"
    else
      match mapFloat vec with
      | none => .error "Gemini embedding vector contains non-numeric values"
      | some out => .ok out

/-! ## Cosine similarity (`cosine_similarity` in `src/search.py`)

The accumulations `dot`, `na`, `nb` run over `zip(a, b)`.  A score is either
`float("-inf")` or the exact value `num / sqrt den` of `dot / (sqrt(na) *
sqrt(nb))`; the pair `(num, den)` is an exact, executable representation of
that real number, with `den = na * nb > 0`.
-/

/-- `dot`: the accumulated sum of products over `zip(a, b)`. -/
def dotZ (a b : List ℚ) : ℚ :=
  (a.zip b).foldl (fun acc p => acc + p.1 * p.2) 0

/-- `na`: the accumulated sum of squares of the first components over `zip(a, b)`. -/
def naZ (a b : List ℚ) : ℚ :=
  (a.zip b).foldl (fun acc p => acc + p.1 * p.1) 0

/-- `nb`: the accumulated sum of squares of the second components over `zip(a, b)`. -/
def nbZ (a b : List ℚ) : ℚ :=
  (a.zip b).foldl (fun acc p => acc + p.2 * p.2) 0

/-- A similarity score: `float("-inf")`, or the exact real number
`num / sqrt den` with `den > 0`. -/
inductive Score
  | negInf
  | root (num : ℚ) (den : {q : ℚ // 0 < q})
deriving DecidableEq

/-- Generic foldl-accumulation equals the starting value plus a sum. -/
theorem foldl_add_sum {α : Type} (g : α → ℚ) :
    ∀ (l : List α) (acc : ℚ), l.foldl (fun acc p => acc + g p) acc = acc + (l.map g).sum := by
  intro l
  induction l with
  | nil => intro acc; simp
  | cons x xs ih =>
    intro acc
    simp only [List.foldl_cons, List.map_cons, List.sum_cons, ih]
    ring

/-- `na` is a sum of squares, hence non-negative. -/
theorem naZ_nonneg (a b : List ℚ) : 0 ≤ naZ a b := by
  rw [naZ, foldl_add_sum]
  have : 0 ≤ ((a.zip b).map fun p => p.1 * p.1).sum := by
    apply List.sum_nonneg
    intro x hx
    obtain ⟨p, _, rfl⟩ := List.mem_map.mp hx
    exact mul_self_nonneg _
  linarith

/-- `nb` is a sum of squares, hence non-negative. -/
theorem nbZ_nonneg (a b : List ℚ) : 0 ≤ nbZ a b := by
  rw [nbZ, foldl_add_sum]
  have : 0 ≤ ((a.zip b).map fun p => p.2 * p.2).sum := by
    apply List.sum_nonneg
    intro x hx
    obtain ⟨p, _, rfl⟩ := List.mem_map.mp hx
    exact mul_self_nonneg _
  linarith

/-- `cosine_similarity(a, b)`:

```
if not a or not b or len(a) != len(b): return float("-inf")
...
denom = math.sqrt(na) * math.sqrt(nb)
return dot / denom if denom != 0.0 else float("-inf")
```

In exact arithmetic `sqrt(na) * sqrt(nb) = 0` iff `na * nb = 0`
(both are non-negative), and the returned value `dot / (sqrt(na) * sqrt(nb))`
equals `dot / sqrt(na * nb)`, represented exactly as `.root dot (na * nb)`. -/
def cosine_similarity (a b : List ℚ) : Score :=
  if a = [] ∨ b = [] ∨ a.length ≠ b.length then .negInf
  else if h : naZ a b * nbZ a b = 0 then .negInf
  else .root (dotZ a b)
    ⟨naZ a b * nbZ a b,
     lt_of_le_of_ne (mul_nonneg (naZ_nonneg a b) (nbZ_nonneg a b)) (Ne.symm h)⟩

/-- The real number a score denotes: `⊥` for `float("-inf")`,
`num / sqrt den` otherwise. -/
noncomputable def Score.val : Score → EReal
  | .negInf => ⊥
  | .root n d => (((n : ℝ) / Real.sqrt (d.1 : ℝ) : ℝ) : EReal)

/-- Decidable comparison of two scores, agreeing with the real order of the
numbers they denote (`-inf` first; `a/sqrt p ≤ b/sqrt q` decided by sign
analysis and cross-multiplied squares). -/
def Score.ble : Score → Score → Bool
  | .negInf, _ => true
  | .root _ _, .negInf => false
  | .root a p, .root b q =>
    if 0 ≤ a then
      if 0 ≤ b then decide (a ^ 2 * q.1 ≤ b ^ 2 * p.1) else false
    else
      if 0 ≤ b then true else decide (b ^ 2 * p.1 ≤ a ^ 2 * q.1)

/-- Scores denoting the same real number (`ble` in both directions) — a tie
for the ranking sort. -/
def scoreTie (s t : Score) : Bool :=
  Score.ble s t && Score.ble t s

/-! ## Retrieval ranker (`main` in `src/search.py`)

Candidate rows come from the store as jsonb values.  JSON numbers are always
finite, so a numeric element is a rational; every other jsonb element makes
`float(x)` raise.
-/

/-- An element of a jsonb array: a (finite) JSON number, or any other JSON
value, on which `float(x)` raises. -/
inductive JVal
  | num (q : ℚ)
  | other
deriving DecidableEq

/-- Python `float(x)` on a jsonb array element. -/
def JVal.toFloat? : JVal → Option ℚ
  | .num q => some q
  | .other => none

/-- A jsonb column value as seen from Python: `None`, a list, the empty
object `{}`, or any other JSON value. -/
inductive Jsonb
  | null
  | arr (l : List JVal)
  | emptyObj
  | other
deriving DecidableEq

/-- A row of `document_chunks` as fetched by `src/search.py`. -/
structure ChunkRec where
  id : Nat
  filename : String
  split_strategy : String
  chunk_text : String
  embedding : Jsonb
deriving DecidableEq

/-- The candidate-filtering step of the ranking loop:

```
if not isinstance(emb, list) or len(emb) == 0: skipped += 1; continue
try: emb_vec = [float(x) for x in emb]
except Exception: skipped += 1; continue
```

`none` means the candidate is skipped. -/
def mapQ : List JVal → Option (List ℚ)
  | [] => some []
  | x :: xs =>
    match JVal.toFloat? x, mapQ xs with
    | some v, some vs => some (v :: vs)
    | _, _ => none

/-- See `mapQ`: `none` means the candidate is skipped. -/
def coerceEmb : Jsonb → Option (List ℚ)
  | .arr l => if l.length = 0 then none else mapQ l
  | _ => none

/-- Whether a candidate row carries a valid embedding (is scored, not skipped). -/
def validEmb (c : ChunkRec) : Bool :=
  (coerceEmb c.embedding).isSome

/-- The `scored` list: each validly-embedded candidate paired with its
cosine score against the query embedding, in input order. -/
def scoredList (query_emb : List ℚ) (chunks : List ChunkRec) : List (Score × ChunkRec) :=
  chunks.filterMap fun c =>
    (coerceEmb c.embedding).map fun v => (cosine_similarity query_emb v, c)

/-- The comparison of `scored.sort(key=lambda x: x[0], reverse=True)`:
descending by score; a stable sort under this relation keeps tied entries
in input order, exactly like Python's stable `list.sort`. -/
def scoreDescBle (x y : Score × ChunkRec) : Bool :=
  Score.ble y.1 x.1

/-- The ranking pipeline of `src/search.py`'s `main`: score the valid
candidates, sort stably by score descending, return the first `top_k`. -/
def rankChunks (query_emb : List ℚ) (chunks : List ChunkRec) (top_k : Nat) :
    List (Score × ChunkRec) :=
  ((scoredList query_emb chunks).mergeSort scoreDescBle).take top_k

/-! ## Backfill coordinator (`main` in `src/embedder.py`)

```
for chunk_id, chunk_text in rows:
    if not chunk_text or not str(chunk_text).strip():
        skipped += 1; continue
    vec = embed_text(client, chunk_text)          # raises -> aborts run
    try: update_embedding(chunk_id, vec)
    except Exception as e:
        raise RuntimeError(f"DB update failed for chunk_id=...: ...")
    updated += 1
print(f"Done. Updated={updated} Skipped={skipped}")
```

The loop is modelled generically over a store state `σ`, an embedder and a
writer, and additionally records every external call made, so that
"no further chunks are processed" is observable.
-/

/-- The error aborting a backfill run. -/
inductive BFErr
  | embedFail (msg : String)
  | writeFail (chunk_id : Nat) (msg : String)
deriving DecidableEq

/-- An external call made by the backfill loop. -/
inductive BFEvent
  | embedCall (chunk_id : Nat) (text : String)
  | writeCall (chunk_id : Nat) (vec : List ℚ)
deriving DecidableEq

/-- Python `not chunk_text or not str(chunk_text).strip()`. -/
def isBlank (s : String) : Bool :=
  s.data.all pySpace

/-- The backfill processing loop.  State: store `σ`, `updated`, `skipped`,
and the recorded external calls.  On the first embedder or writer error the
run aborts with that error; the counters are not part of the error. -/
def bfLoop {σ : Type} (embedder : String → Except String (List ℚ))
    (writer : σ → Nat → List ℚ → Except String σ) :
    List (Nat × String) → σ → Nat → Nat → List BFEvent →
    σ × List BFEvent × Except BFErr (Nat × Nat)
  | [], st, u, s, ev => (st, ev, .ok (u, s))
  | (cid, t) :: rest, st, u, s, ev =>
    if isBlank t then
      bfLoop embedder writer rest st u (s + 1) ev
    else
      match embedder t with
      | .error e => (st, ev ++ [.embedCall cid t], .error (.embedFail e))
      | .ok vec =>
        match writer st cid vec with
        | .error e =>
          (st, ev ++ [.embedCall cid t, .writeCall cid vec],
           .error (.writeFail cid ("DB update failed for chunk_id=" ++ toString cid ++ ": " ++ e)))
        | .ok st' =>
          bfLoop embedder writer rest st' (u + 1) s (ev ++ [.embedCall cid t, .writeCall cid vec])

/-- A whole backfill run over the fetched rows, starting from zero counters. -/
def backfill {σ : Type} (embedder : String → Except String (List ℚ))
    (writer : σ → Nat → List ℚ → Except String σ)
    (rows : List (Nat × String)) (st : σ) :
    σ × List BFEvent × Except BFErr (Nat × Nat) :=
  bfLoop embedder writer rows st 0 0 []

/-- The SQL selection predicate of `fetch_chunks_without_embedding`:
`embedding IS NULL OR embedding = '{}'::jsonb OR embedding = '[]'::jsonb`. -/
def embMissing : Jsonb → Bool
  | .null => true
  | .arr l => l.isEmpty
  | .emptyObj => true
  | .other => false

/-- `fetch_chunks_without_embedding(limit)`: the missing-embedding chunks,
ordered by ascending id, at most `limit`, as `(id, chunk_text)` rows. -/
def fetch_chunks_without_embedding (store : List ChunkRec) (limit : Nat) :
    List (Nat × String) :=
  ((((store.filter fun c => embMissing c.embedding).mergeSort
      fun a b => decide (a.id ≤ b.id)).take limit).map
    fun c => (c.id, c.chunk_text))

/-- `update_embedding(chunk_id, embedding)`: set the embedding column of the
rows with that id (stored back as a jsonb array of numbers). -/
def update_embedding (store : List ChunkRec) (cid : Nat) (vec : List ℚ) :
    List ChunkRec :=
  store.map fun c =>
    if c.id = cid then { c with embedding := .arr (vec.map JVal.num) } else c

/-- The writer of a run whose store writes succeed: apply `update_embedding`. -/
def storeWriter (st : List ChunkRec) (cid : Nat) (vec : List ℚ) :
    Except String (List ChunkRec) :=
  .ok (update_embedding st cid vec)

/-- A backfill run against an in-model store whose writes always succeed:
fetch the missing-embedding rows, process them, apply each write to the store. -/
def backfillOnStore (embedder : String → Except String (List ℚ))
    (store : List ChunkRec) (limit : Nat) :
    List ChunkRec × List BFEvent × Except BFErr (Nat × Nat) :=
  backfill embedder storeWriter (fetch_chunks_without_embedding store limit) store

/-- Sample candidate rows: two valid embeddings around a non-list one. -/
def rankingWitnessChunks : List ChunkRec :=
  [⟨1, "doc.pdf", "fixed_size", "alpha", Jsonb.arr [JVal.num 1, JVal.num 0]⟩,
   ⟨2, "doc.pdf", "fixed_size", "beta", Jsonb.other⟩,
   ⟨3, "doc.pdf", "fixed_size", "gamma", Jsonb.arr [JVal.num 0, JVal.num 1]⟩]

/-- Sample store with a single chunk lacking its embedding. -/
def backfillWitnessStore : List ChunkRec :=
  [⟨1, "doc.pdf", "fixed_size", "hello", Jsonb.null⟩]

/-! ## Theorems -/

/-- From `start = 0` the loop on a 1-character text with
`chunk_size = overlap = 1` makes no progress: every fuel bound is exhausted. -/
theorem cfsLoopF_one_one_none (fuel : Nat) :
    cfsLoopF "a".data 1 1 fuel 0 = none := by
  induction fuel with
  | zero => decide
  | succ f ih =>
    rw [cfsLoopF]
    rw [show cfsStep 1 1 0 = 0 from by decide]
    rw [ih]
    decide

/-- C1 counterexample: `chunk_fixed_size("a", 1, 1)` does not terminate —
with `overlap = chunk_size` the next start offset equals the current one
(the clamp keeps it at 0), so the loop guard `start < len(text)` never fails. -/
theorem chunk_fixed_size_diverges : ¬ cfsTerminates "a".data 1 1 := by
  rintro ⟨fuel, h⟩
  rw [cfsLoopF_one_one_none fuel] at h
  exact Bool.noConfusion h

/-- C1 amended: `chunk_fixed_size(text, chunk_size, overlap)` terminates for
every text whenever `overlap < chunk_size` (each iteration advances the start
offset by `chunk_size - overlap ≥ 1`, so the loop stops once it reaches
`len(text)`); the clamp to 0 does not prevent the infinite loop when
`overlap ≥ chunk_size` on non-empty text. -/
theorem chunk_fixed_size_terminates (text : List Char) (chunk_size overlap : Nat)
    (h : overlap < chunk_size) : cfsTerminates text chunk_size overlap := by
  have key : ∀ (fuel start : Nat), text.length ≤ start + fuel * (chunk_size - overlap) →
      (cfsLoopF text chunk_size overlap fuel start).isSome := by
    intro fuel
    induction fuel with
    | zero =>
      intro start hle
      rw [cfsLoopF]
      have : ¬ start < text.length := by omega
      simp [this]
    | succ f ih =>
      intro start hle
      rw [cfsLoopF]
      by_cases hs : start < text.length
      · simp only [hs, if_true]
        have hstep : cfsStep chunk_size overlap start = start + (chunk_size - overlap) := by
          rw [cfsStep]
          have h1 : ¬ (((start + chunk_size : Nat) : Int) - (overlap : Int) < 0) := by
            push_cast; omega
          simp only [h1, if_false]
          omega
        have hrec : (cfsLoopF text chunk_size overlap f
            (cfsStep chunk_size overlap start)).isSome := by
          apply ih
          rw [hstep]
          have : (f + 1) * (chunk_size - overlap) =
              chunk_size - overlap + f * (chunk_size - overlap) := by ring
          omega
        obtain ⟨rest, hrest⟩ := Option.isSome_iff_exists.mp hrec
        rw [hrest]
        simp
      · simp [hs]
  refine ⟨text.length, key text.length 0 ?_⟩
  have : text.length * 1 ≤ text.length * (chunk_size - overlap) :=
    Nat.mul_le_mul_left _ (by omega)
  omega

theorem chunk_fixed_size_terminates_witness :
    1 < 4 ∧ cfsTerminates "abcdefghij".data 4 1 :=
  ⟨by decide, chunk_fixed_size_terminates "abcdefghij".data 4 1 (by decide)⟩

/-- C8: `chunk_fixed_size("abcdefghij", 4, 1) == ["abcd","defg","ghij","j"]`
(windows at offsets 0, 3, 6, 9). -/
theorem chunk_fixed_size_example :
    chunk_fixed_size "abcdefghij".data 4 1 =
      some ["abcd".data, "defg".data, "ghij".data, "j".data] := by decide

/-- C2 counterexample: `chunk_by_sentences("Hi. World is big. X.", 10)` does
not return `["Hi.", "World is", "big.", "X."]` — the oversized sentence
`"World is big."` is hard-split into fixed-width 10-character slices, not at
a word boundary. -/
theorem chunk_by_sentences_example_ne :
    chunk_by_sentences "Hi. World is big. X.".data 10 ≠
      ["Hi.".data, "World is".data, "big.".data, "X.".data] := by decide

/-- C2 amended: the input is split into the sentences
`["Hi.", "World is big.", "X."]`, and packing with limit 10 yields exactly
`["Hi.", "World is b", "ig.", "X."]`: the 13-character sentence is
force-split into the fixed-width slices `"World is b"` and `"ig."`. -/
theorem chunk_by_sentences_example :
    splitSentences (joinSpace (pySplitWs "Hi. World is big. X.".data)) =
      ["Hi.".data, "World is big.".data, "X.".data] ∧
    chunk_by_sentences "Hi. World is big. X.".data 10 =
      ["Hi.".data, "World is b".data, "ig.".data, "X.".data] :=
  ⟨by decide, by decide⟩

/-- Converting a response vector containing a non-numeric element fails. -/
theorem mapFloat_eq_none (l : List RVal) (h : RVal.nonNum ∈ l) :
    mapFloat l = none := by
  induction l with
  | nil => cases h
  | cons x xs ih =>
    rcases List.mem_cons.mp h with rfl | hxs
    · cases hm : mapFloat xs <;> simp [mapFloat, RVal.toFloat?, hm]
    · cases x <;> simp [mapFloat, RVal.toFloat?, ih hxs]

/-- Converting a response vector with no non-numeric element succeeds,
returning each element's float conversion (non-finite values included). -/
theorem mapFloat_eq_some (l : List RVal) (h : RVal.nonNum ∉ l) :
    mapFloat l = some (l.filterMap RVal.toFloat?) := by
  induction l with
  | nil => simp [mapFloat]
  | cons x xs ih =>
    have hxs : RVal.nonNum ∉ xs := fun hm => h (List.mem_cons_of_mem _ hm)
    cases x with
    | nonNum => exact absurd (List.mem_cons_self _ _) h
    | fin q => simp [mapFloat, RVal.toFloat?, ih hxs]
    | nan => simp [mapFloat, RVal.toFloat?, ih hxs]
    | inf => simp [mapFloat, RVal.toFloat?, ih hxs]
    | ninf => simp [mapFloat, RVal.toFloat?, ih hxs]

/-- C3 counterexample: a response whose single element is `float("inf")` is
accepted — `embed_text` returns the non-finite value in the vector instead of
raising `EmbeddingFailure`; the code never checks finiteness. -/
theorem embed_text_accepts_inf :
    embed_text (.values [RVal.inf]) = .ok [FVal.inf] := rfl

/-- C3 amended: `embed_text` fails exactly when the response is malformed,
is not a non-empty list, or contains a non-numeric element; a response of
numeric elements is accepted and returned element-wise `float`-converted,
with non-finite elements (NaN, ±inf) passed through, not rejected. -/
theorem embed_text_validation :
    (embed_text .malformed = .error "Gemini returned unexpected embedding response")
    ∧ (embed_text .notList = .error "Gemini returned empty/invalid embedding vector")
    ∧ (embed_text (.values []) = .error "Gemini returned empty/invalid embedding vector")
    ∧ (∀ l : List RVal, RVal.nonNum ∈ l →
        embed_text (.values l) = .error "Gemini embedding vector contains non-numeric values")
    ∧ (∀ l : List RVal, l ≠ [] → RVal.nonNum ∉ l →
        embed_text (.values l) = .ok (l.filterMap RVal.toFloat?)) := by
  refine ⟨rfl, rfl, rfl, ?_, ?_⟩
  · intro l h
    have hne : l ≠ [] := by rintro rfl; cases h
    have hlen : ¬ l.length = 0 := fun h0 => hne (List.length_eq_zero.mp h0)
    simp [embed_text, hlen, mapFloat_eq_none l h]
  · intro l hne hnn
    have hlen : ¬ l.length = 0 := fun h0 => hne (List.length_eq_zero.mp h0)
    simp [embed_text, hlen, mapFloat_eq_some l hnn]

theorem embed_text_validation_witness :
    embed_text (.values [RVal.fin 2, RVal.inf]) = .ok [FVal.fin 2, FVal.inf] := by
  have h := embed_text_validation.2.2.2.2 [RVal.fin 2, RVal.inf] (by decide) (by decide)
  simpa using h
/-- The score comparison is total. -/
theorem Score.ble_total (s t : Score) : (Score.ble s t || Score.ble t s) = true := by
  cases s with
  | negInf => simp [Score.ble]
  | root a p =>
    cases t with
    | negInf => simp [Score.ble]
    | root b q =>
      by_cases ha : 0 ≤ a
      · by_cases hb : 0 ≤ b
        · simp only [Score.ble, if_pos ha, if_pos hb, Bool.or_eq_true, decide_eq_true_eq]
          rcases le_total (a ^ 2 * q.1) (b ^ 2 * p.1) with h | h
          · exact Or.inl h
          · exact Or.inr h
        · simp [Score.ble, if_pos ha, if_neg hb]
      · by_cases hb : 0 ≤ b
        · simp [Score.ble, if_neg ha, if_pos hb]
        · simp only [Score.ble, if_neg ha, if_neg hb, Bool.or_eq_true, decide_eq_true_eq]
          rcases le_total (b ^ 2 * p.1) (a ^ 2 * q.1) with h | h
          · exact Or.inl h
          · exact Or.inr h

/-- Cross-multiplied-squares transitivity, non-negative numerators. -/
theorem sq_cross_trans_nonneg (a b c p q r : ℚ) (hp : 0 < p) (hq : 0 < q) (hr : 0 < r)
    (h1 : a ^ 2 * q ≤ b ^ 2 * p) (h2 : b ^ 2 * r ≤ c ^ 2 * q) : a ^ 2 * r ≤ c ^ 2 * p := by
  have e3 : a ^ 2 * r * q ≤ c ^ 2 * p * q := by nlinarith
  exact le_of_mul_le_mul_right e3 hq

/-- The score comparison is transitive. -/
theorem Score.ble_trans (s t u : Score) (h1 : Score.ble s t = true)
    (h2 : Score.ble t u = true) : Score.ble s u = true := by
  cases s with
  | negInf => simp [Score.ble]
  | root a p =>
    cases t with
    | negInf => exact absurd h1 (by simp [Score.ble])
    | root b q =>
      cases u with
      | negInf => exact absurd h2 (by simp [Score.ble])
      | root c r =>
        by_cases ha : 0 ≤ a
        · by_cases hb : 0 ≤ b
          · by_cases hc : 0 ≤ c
            · simp only [Score.ble, if_pos ha, if_pos hb, if_pos hc,
                decide_eq_true_eq] at h1 h2 ⊢
              exact sq_cross_trans_nonneg a b c p.1 q.1 r.1 p.2 q.2 r.2 h1 h2
            · simp only [Score.ble, if_pos hb, if_neg hc] at h2
              exact absurd h2 (by simp)
          · simp only [Score.ble, if_pos ha, if_neg hb] at h1
            exact absurd h1 (by simp)
        · by_cases hc : 0 ≤ c
          · simp [Score.ble, if_neg ha, if_pos hc]
          · by_cases hb : 0 ≤ b
            · simp only [Score.ble, if_pos hb, if_neg hc] at h2
              exact absurd h2 (by simp)
            · simp only [Score.ble, if_neg ha, if_neg hb, if_neg hc,
                decide_eq_true_eq] at h1 h2 ⊢
              exact sq_cross_trans_nonneg c b a r.1 q.1 p.1 r.2 q.2 p.2 h2 h1
/-- Transitivity of the descending comparison used by the ranking sort. -/
theorem scoreDescBle_trans (x y z : Score × ChunkRec)
    (h1 : scoreDescBle x y = true) (h2 : scoreDescBle y z = true) :
    scoreDescBle x z = true :=
  Score.ble_trans z.1 y.1 x.1 h2 h1

/-- Totality of the descending comparison used by the ranking sort. -/
theorem scoreDescBle_total (x y : Score × ChunkRec) :
    (scoreDescBle x y || scoreDescBle y x) = true :=
  Score.ble_total y.1 x.1

/-- The scored list has one entry per validly-embedded candidate. -/
theorem scoredList_length (q : List ℚ) (chunks : List ChunkRec) :
    (scoredList q chunks).length = chunks.countP validEmb := by
  induction chunks with
  | nil => simp [scoredList]
  | cons c cs ih =>
    cases h : coerceEmb c.embedding <;>
      simp [scoredList, List.filterMap_cons, h, validEmb, List.countP_cons, ih] <;>
      simp [scoredList] at ih <;> omega

/-- C5: for every query vector, candidate list and `top_k > 0`, the ranking
output (i) has length `min(top_k, number of validly-embedded candidates)`,
(ii) is sorted by score descending, (iii) contains only validly-embedded
candidates, and (iv) keeps score ties in original input order: within each
tie class the output is a sublist of the scored input order (stable sort,
no secondary key). -/
theorem ranking_spec (q : List ℚ) (chunks : List ChunkRec) (k : Nat) (_hk : 0 < k) :
    (rankChunks q chunks k).length = min k (chunks.countP validEmb)
    ∧ (rankChunks q chunks k).Pairwise (fun x y => scoreDescBle x y = true)
    ∧ (∀ p ∈ rankChunks q chunks k, validEmb p.2 = true)
    ∧ (∀ s : Score, List.Sublist
        ((rankChunks q chunks k).filter (fun p => scoreTie p.1 s))
        ((scoredList q chunks).filter (fun p => scoreTie p.1 s))) := by
  refine ⟨?_, ?_, ?_, ?_⟩
  · simp [rankChunks, List.length_take, List.length_mergeSort, scoredList_length]
  · exact ((List.sorted_mergeSort scoreDescBle_trans scoreDescBle_total
      (scoredList q chunks)).sublist (List.take_sublist _ _))
  · intro p hp
    have hp1 : p ∈ (scoredList q chunks).mergeSort scoreDescBle :=
      List.mem_of_mem_take hp
    have hp2 : p ∈ scoredList q chunks := List.mem_mergeSort.mp hp1
    obtain ⟨c, _, heq⟩ := List.mem_filterMap.mp hp2
    obtain ⟨v, hv, hfp⟩ := Option.map_eq_some'.mp heq
    rw [← hfp]
    simp [validEmb, hv]
  · intro s
    have hpair : ((scoredList q chunks).filter (fun p => scoreTie p.1 s)).Pairwise
        (fun x y => scoreDescBle x y = true) := by
      apply List.pairwise_of_forall_mem_list
      intro x hx y hy
      have hxT := (List.mem_filter.mp hx).2
      have hyT := (List.mem_filter.mp hy).2
      simp only [scoreTie, Bool.and_eq_true] at hxT hyT
      exact Score.ble_trans y.1 s x.1 hyT.1 hxT.2
    have hsub : List.Sublist ((scoredList q chunks).filter (fun p => scoreTie p.1 s))
        ((scoredList q chunks).mergeSort scoreDescBle) :=
      List.sublist_mergeSort scoreDescBle_trans scoreDescBle_total hpair
        (List.filter_sublist _)
    have h1 : List.Sublist ((scoredList q chunks).filter (fun p => scoreTie p.1 s))
        (((scoredList q chunks).mergeSort scoreDescBle).filter (fun p => scoreTie p.1 s)) := by
      have h2 := hsub.filter (fun p => scoreTie p.1 s)
      simpa [List.filter_filter] using h2
    have hlen : (((scoredList q chunks).mergeSort scoreDescBle).filter
        (fun p => scoreTie p.1 s)).length =
        ((scoredList q chunks).filter (fun p => scoreTie p.1 s)).length :=
      ((List.mergeSort_perm (scoredList q chunks) scoreDescBle).filter _).length_eq
    have heq : ((scoredList q chunks).mergeSort scoreDescBle).filter
        (fun p => scoreTie p.1 s) =
        (scoredList q chunks).filter (fun p => scoreTie p.1 s) :=
      (h1.eq_of_length hlen.symm).symm
    have hfin : List.Sublist ((rankChunks q chunks k).filter (fun p => scoreTie p.1 s))
        (((scoredList q chunks).mergeSort scoreDescBle).filter (fun p => scoreTie p.1 s)) :=
      (List.take_sublist _ _).filter _
    rw [heq] at hfin
    exact hfin

/-- `zip(b, a)` is `zip(a, b)` with the pairs swapped. -/
theorem zipSwap (a b : List ℚ) : b.zip a = (a.zip b).map Prod.swap :=
  (List.zip_swap a b).symm

/-- The accumulated dot product is symmetric. -/
theorem dotZ_comm (a b : List ℚ) : dotZ b a = dotZ a b := by
  rw [dotZ, dotZ, foldl_add_sum, foldl_add_sum, zipSwap, List.map_map]
  refine congrArg (fun l : List ℚ => (0 : ℚ) + l.sum) (List.map_congr_left ?_)
  intro p _
  exact mul_comm p.2 p.1

/-- Swapping the argument lists turns the `na` accumulation into `nb`. -/
theorem naZ_swap (a b : List ℚ) : naZ b a = nbZ a b := by
  rw [naZ, nbZ, foldl_add_sum, foldl_add_sum, zipSwap, List.map_map]
  rfl

/-- Swapping the argument lists turns the `nb` accumulation into `na`. -/
theorem nbZ_swap (a b : List ℚ) : nbZ b a = naZ a b := by
  rw [naZ, nbZ, foldl_add_sum, foldl_add_sum, zipSwap, List.map_map]
  rfl

/-- C10: cosine similarity is symmetric, guard cases (empty vector, dimension
mismatch, zero denominator) included — both orders give `float("-inf")` there. -/
theorem cosine_similarity_comm (a b : List ℚ) :
    cosine_similarity a b = cosine_similarity b a := by
  rw [cosine_similarity, cosine_similarity]
  by_cases hg : a = [] ∨ b = [] ∨ a.length ≠ b.length
  · have hg' : b = [] ∨ a = [] ∨ b.length ≠ a.length := by tauto
    rw [if_pos hg, if_pos hg']
  · have hg' : ¬ (b = [] ∨ a = [] ∨ b.length ≠ a.length) := by tauto
    rw [if_neg hg, if_neg hg']
    simp only [dotZ_comm a b, naZ_swap a b, nbZ_swap a b, mul_comm (nbZ a b) (naZ a b)]

/-- C6: when both vectors are non-empty, of equal dimension, and the
denominator `sqrt(na) * sqrt(nb)` is non-zero, the similarity is exactly
`dot / (sqrt(na) * sqrt(nb))`; in the guard cases it is `float("-inf")`
instead of an error. -/
theorem cosine_similarity_val (a b : List ℚ) :
    (∀ (_ : a ≠ []) (_ : b ≠ []) (_ : a.length = b.length)
      (_ : Real.sqrt (naZ a b : ℝ) * Real.sqrt (nbZ a b : ℝ) ≠ 0),
      Score.val (cosine_similarity a b) =
        (((dotZ a b : ℝ) / (Real.sqrt (naZ a b : ℝ) * Real.sqrt (nbZ a b : ℝ)) : ℝ) : EReal))
    ∧ ((a = [] ∨ b = [] ∨ a.length ≠ b.length ∨
        Real.sqrt (naZ a b : ℝ) * Real.sqrt (nbZ a b : ℝ) = 0) →
      cosine_similarity a b = Score.negInf) := by
  constructor
  · intro h1 h2 h3 h4
    have hna : (0 : ℝ) < (naZ a b : ℝ) := by
      rcases mul_ne_zero_iff.mp h4 with ⟨hsa, _⟩
      have := naZ_nonneg a b
      have hle : ¬ ((naZ a b : ℝ) ≤ 0) := fun hle => hsa (Real.sqrt_eq_zero'.mpr hle)
      push_neg at hle
      exact hle
    have hnb : (0 : ℝ) < (nbZ a b : ℝ) := by
      rcases mul_ne_zero_iff.mp h4 with ⟨_, hsb⟩
      have hle : ¬ ((nbZ a b : ℝ) ≤ 0) := fun hle => hsb (Real.sqrt_eq_zero'.mpr hle)
      push_neg at hle
      exact hle
    have hprod : naZ a b * nbZ a b ≠ 0 := by
      have hna' : (0 : ℚ) < naZ a b := by exact_mod_cast hna
      have hnb' : (0 : ℚ) < nbZ a b := by exact_mod_cast hnb
      exact (mul_pos hna' hnb').ne'
    have hguard : ¬ (a = [] ∨ b = [] ∨ a.length ≠ b.length) := by
      push_neg
      exact ⟨h1, h2, h3⟩
    rw [cosine_similarity, if_neg hguard, dif_neg hprod]
    rw [Score.val]
    congr 1
    rw [show ((naZ a b * nbZ a b : ℚ) : ℝ) = (naZ a b : ℝ) * (nbZ a b : ℝ) from by push_cast; ring]
    rw [Real.sqrt_mul (le_of_lt hna)]
  · intro h
    rcases h with h | h | h | h
    · rw [cosine_similarity, if_pos (Or.inl h)]
    · rw [cosine_similarity, if_pos (Or.inr (Or.inl h))]
    · rw [cosine_similarity, if_pos (Or.inr (Or.inr h))]
    · by_cases hguard : a = [] ∨ b = [] ∨ a.length ≠ b.length
      · rw [cosine_similarity, if_pos hguard]
      · have hprod : naZ a b * nbZ a b = 0 := by
          rcases mul_eq_zero.mp h with hs | hs
          · have hle := Real.sqrt_eq_zero'.mp hs
            have hge := naZ_nonneg a b
            have : naZ a b = 0 := by
              have : (naZ a b : ℝ) = 0 := le_antisymm (by exact_mod_cast hle) (by exact_mod_cast hge)
              exact_mod_cast this
            rw [this, zero_mul]
          · have hle := Real.sqrt_eq_zero'.mp hs
            have hge := nbZ_nonneg a b
            have : nbZ a b = 0 := by
              have : (nbZ a b : ℝ) = 0 := le_antisymm (by exact_mod_cast hle) (by exact_mod_cast hge)
              exact_mod_cast this
            rw [this, mul_zero]
        rw [cosine_similarity, if_neg hguard, dif_pos hprod]

theorem cosine_similarity_val_witness :
    Score.val (cosine_similarity [1] [1]) =
      (((dotZ [1] [1] : ℝ) /
        (Real.sqrt (naZ [1] [1] : ℝ) * Real.sqrt (nbZ [1] [1] : ℝ)) : ℝ) : EReal) :=
  (cosine_similarity_val [1] [1]).1 (by decide) (by decide) (by decide) (by
    rw [show naZ [1] [1] = 1 from by norm_num [naZ],
      show nbZ [1] [1] = 1 from by norm_num [nbZ]]
    norm_num [Real.sqrt_one])

theorem ranking_spec_witness :
    (rankChunks [1, 0] rankingWitnessChunks 2).length =
        min 2 (rankingWitnessChunks.countP validEmb)
    ∧ (rankChunks [1, 0] rankingWitnessChunks 2).Pairwise (fun x y => scoreDescBle x y = true)
    ∧ (∀ p ∈ rankChunks [1, 0] rankingWitnessChunks 2, validEmb p.2 = true)
    ∧ (∀ s : Score, List.Sublist
        ((rankChunks [1, 0] rankingWitnessChunks 2).filter (fun p => scoreTie p.1 s))
        ((scoredList [1, 0] rankingWitnessChunks).filter (fun p => scoreTie p.1 s))) :=
  ranking_spec [1, 0] rankingWitnessChunks 2 (by decide)
/-- Processing a concatenation of row lists: the second part runs only if the
first part finished without error, continuing from its state and counters. -/
theorem bfLoop_append {σ : Type} (e : String → Except String (List ℚ))
    (w : σ → Nat → List ℚ → Except String σ) :
    ∀ (l1 l2 : List (Nat × String)) (st : σ) (u s : Nat) (ev : List BFEvent),
    bfLoop e w (l1 ++ l2) st u s ev =
      match bfLoop e w l1 st u s ev with
      | (st1, ev1, .ok p) => bfLoop e w l2 st1 p.1 p.2 ev1
      | (st1, ev1, .error er) => (st1, ev1, .error er) := by
  intro l1
  induction l1 with
  | nil => intro l2 st u s ev; rfl
  | cons hd tl ih =>
    intro l2 st u s ev
    obtain ⟨cid, t⟩ := hd
    by_cases hb : isBlank t
    · simp [List.cons_append, bfLoop, hb, ih, List.append_eq]
    · cases he : e t with
      | error msg => simp [List.cons_append, bfLoop, hb, he]
      | ok vec =>
        cases hw : w st cid vec with
        | error msg => simp [List.cons_append, bfLoop, hb, he, hw]
        | ok st2 => simp [List.cons_append, bfLoop, hb, he, hw, ih, List.append_eq]

/-- C4 amended: when the embedder fails on a chunk, or a store write fails
after a successful embed, backfill aborts immediately — the rows after the
failing one are never processed (the result does not depend on them) and no
further external calls are recorded — and a store-write failure surfaces the
chunk id and the underlying error.  The `updated`/`skipped` counters
accumulated over the prefix (`u`/`s` below) are dropped by the failure exit:
the returned value carries only the error. -/
theorem backfill_fail_fast {σ : Type} (e : String → Except String (List ℚ))
    (w : σ → Nat → List ℚ → Except String σ)
    (pre : List (Nat × String)) (cid : Nat) (t : String) (rest : List (Nat × String))
    (st st1 : σ) (ev1 : List BFEvent) (u s : Nat)
    (hpre : bfLoop e w pre st 0 0 [] = (st1, ev1, .ok (u, s)))
    (hblank : isBlank t = false) :
    (∀ msg, e t = .error msg →
      backfill e w (pre ++ (cid, t) :: rest) st =
        (st1, ev1 ++ [.embedCall cid t], .error (.embedFail msg)))
    ∧ (∀ vec msg, e t = .ok vec → w st1 cid vec = .error msg →
      backfill e w (pre ++ (cid, t) :: rest) st =
        (st1, ev1 ++ [.embedCall cid t, .writeCall cid vec],
         .error (.writeFail cid
           ("DB update failed for chunk_id=" ++ toString cid ++ ": " ++ msg)))) := by
  constructor
  · intro msg he
    rw [backfill, bfLoop_append, hpre]
    simp [bfLoop, hblank, he]
  · intro vec msg he hw
    rw [backfill, bfLoop_append, hpre]
    simp [bfLoop, hblank, he, hw]

theorem backfill_fail_fast_witness :
    (∀ msg, (fun _ : String => (Except.ok [(1 : ℚ)] : Except String (List ℚ))) "beta" = .error msg →
      backfill (fun _ => .ok [(1 : ℚ)])
        (fun _ cid _ => if cid = 2 then .error "boom" else .ok ())
        ([(1, "alpha")] ++ (2, "beta") :: [(3, "gamma")]) () =
        ((), [.embedCall 1 "alpha", .writeCall 1 [1], .embedCall 2 "beta"],
         .error (.embedFail msg)))
    ∧ (∀ vec msg, (fun _ : String => (Except.ok [(1 : ℚ)] : Except String (List ℚ))) "beta" = .ok vec →
      (fun _ : Unit => fun cid : Nat => fun _ : List ℚ =>
        if cid = 2 then (Except.error "boom" : Except String Unit) else .ok ()) () 2 vec = .error msg →
      backfill (fun _ => .ok [(1 : ℚ)])
        (fun _ cid _ => if cid = 2 then .error "boom" else .ok ())
        ([(1, "alpha")] ++ (2, "beta") :: [(3, "gamma")]) () =
        ((), [.embedCall 1 "alpha", .writeCall 1 [1], .embedCall 2 "beta", .writeCall 2 vec],
         .error (.writeFail 2
           ("DB update failed for chunk_id=" ++ toString 2 ++ ": " ++ msg)))) :=
  backfill_fail_fast (fun _ => .ok [(1 : ℚ)])
    (fun _ cid _ => if cid = 2 then .error "boom" else .ok ())
    [(1, "alpha")] 2 "beta" [(3, "gamma")] () ()
    [.embedCall 1 "alpha", .writeCall 1 [1]] 1 0 rfl rfl

/-- C4 counterexample: a concrete backfill run in which chunk 1 is embedded
and written successfully and the write for chunk 2 then fails.  The returned
value is the store state, the recorded calls, and the error alone — the
`updated = 1`, `skipped = 0` counters reached before the failure appear
nowhere in it (the code prints only the error and exits 1), so the run does
not return the counts for the work completed before the failure. -/
theorem backfill_counts_lost :
    backfill (σ := Unit) (fun _ => .ok [(1 : ℚ)])
      (fun _ cid _ => if cid = 2 then .error "boom" else .ok ())
      [(1, "alpha"), (2, "beta"), (3, "gamma")] () =
    ((), [.embedCall 1 "alpha", .writeCall 1 [1], .embedCall 2 "beta", .writeCall 2 [1]],
     .error (.writeFail 2 "DB update failed for chunk_id=2: boom")) := rfl
/-- When no chunk is missing its embedding, the fetch query returns no rows. -/
theorem fetch_nil (store : List ChunkRec) (limit : Nat)
    (h : ∀ c ∈ store, embMissing c.embedding = false) :
    fetch_chunks_without_embedding store limit = [] := by
  have hf : store.filter (fun c => embMissing c.embedding) = [] := by
    rw [List.filter_eq_nil_iff]
    intro c hc
    simp [h c hc]
  simp [fetch_chunks_without_embedding, hf]

/-- A backfill run over a fully-embedded store does nothing. -/
theorem backfill_noop (e : String → Except String (List ℚ))
    (store : List ChunkRec) (limit : Nat)
    (h : ∀ c ∈ store, embMissing c.embedding = false) :
    backfillOnStore e store limit = (store, [], .ok (0, 0)) := by
  rw [backfillOnStore, fetch_nil store limit h]
  rfl

/-- The skipped counter never decreases over a successful run. -/
theorem bfLoop_skip_le {σ : Type} (e : String → Except String (List ℚ))
    (w : σ → Nat → List ℚ → Except String σ) :
    ∀ (rows : List (Nat × String)) (st : σ) (u s : Nat) (ev : List BFEvent)
      (st' : σ) (ev' : List BFEvent) (u' s' : Nat),
    bfLoop e w rows st u s ev = (st', ev', .ok (u', s')) → s ≤ s' := by
  intro rows
  induction rows with
  | nil =>
    intro st u s ev st' ev' u' s' h
    simp only [bfLoop, Prod.mk.injEq, Except.ok.injEq] at h
    omega
  | cons hd tl ih =>
    intro st u s ev st' ev' u' s' h
    obtain ⟨cid, t⟩ := hd
    rw [bfLoop] at h
    by_cases hb : isBlank t
    · rw [if_pos hb] at h
      have := ih st u (s + 1) ev st' ev' u' s' h
      omega
    · rw [if_neg hb] at h
      cases he : e t with
      | error msg =>
        simp only [he, Prod.mk.injEq] at h
        exact absurd h.2.2 (by simp)
      | ok vec =>
        simp only [he] at h
        cases hw : w st cid vec with
        | error msg =>
          simp only [hw, Prod.mk.injEq] at h
          exact absurd h.2.2 (by simp)
        | ok st2 =>
          simp only [hw] at h
          exact ih st2 (u + 1) s _ st' ev' u' s' h

/-- If a run over the store-applying writer succeeds with no new skips, and
every missing-embedding chunk's id was among the processed rows, then the
final store has no missing embeddings (each processed id was written with a
non-empty vector). -/
theorem bfLoop_store_complete (e : String → Except String (List ℚ))
    (hv : ∀ t v, e t = .ok v → v ≠ []) :
    ∀ (rows : List (Nat × String)) (st : List ChunkRec) (u s : Nat)
      (ev : List BFEvent) (st' : List ChunkRec) (ev' : List BFEvent) (u' s' : Nat),
    bfLoop e storeWriter rows st u s ev = (st', ev', .ok (u', s')) →
    s' = s →
    (∀ c ∈ st, embMissing c.embedding = true → c.id ∈ rows.map Prod.fst) →
    ∀ c ∈ st', embMissing c.embedding = false := by
  intro rows
  induction rows with
  | nil =>
    intro st u s ev st' ev' u' s' hrun _ hall c hc
    simp only [bfLoop, Prod.mk.injEq] at hrun
    obtain ⟨rfl, -, -⟩ := hrun
    cases hm : embMissing c.embedding with
    | false => rfl
    | true => exact absurd (hall c hc hm) (by simp)
  | cons hd tl ih =>
    intro st u s ev st' ev' u' s' hrun hs hall
    obtain ⟨cid, t⟩ := hd
    rw [bfLoop] at hrun
    by_cases hb : isBlank t
    · rw [if_pos hb] at hrun
      have := bfLoop_skip_le e storeWriter tl st u (s + 1) ev st' ev' u' s' hrun
      omega
    · rw [if_neg hb] at hrun
      cases he : e t with
      | error msg =>
        simp only [he, Prod.mk.injEq] at hrun
        exact absurd hrun.2.2 (by simp)
      | ok vec =>
        simp only [he, storeWriter] at hrun
        apply ih (update_embedding st cid vec) (u + 1) s _ st' ev' u' s' hrun hs
        intro c hc hm
        obtain ⟨c0, hc0, hceq⟩ := List.mem_map.mp hc
        by_cases hid : c0.id = cid
        · exfalso
          rw [if_pos hid] at hceq
          rw [← hceq] at hm
          simp only [embMissing] at hm
          rcases List.isEmpty_iff.mp hm with hnil
          exact hv t vec he (by simpa using hnil)
        · rw [if_neg hid] at hceq
          rw [← hceq] at hm ⊢
          have := hall c0 hc0 hm
          simp only [List.map_cons, List.mem_cons] at this
          rcases this with h1 | h1
          · exact absurd h1 hid
          · simpa using h1

/-- When the limit covers every missing chunk, each missing chunk's id is
among the fetched rows. -/
theorem fetch_complete (store : List ChunkRec) (limit : Nat)
    (hlim : store.countP (fun c => embMissing c.embedding) ≤ limit) :
    ∀ c ∈ store, embMissing c.embedding = true →
      c.id ∈ (fetch_chunks_without_embedding store limit).map Prod.fst := by
  intro c hc hm
  have h1 : c ∈ store.filter (fun c => embMissing c.embedding) :=
    List.mem_filter.mpr ⟨hc, hm⟩
  have h2 : c ∈ (store.filter (fun c => embMissing c.embedding)).mergeSort
      (fun a b => decide (a.id ≤ b.id)) := List.mem_mergeSort.mpr h1
  have hlen : ((store.filter (fun c => embMissing c.embedding)).mergeSort
      (fun a b => decide (a.id ≤ b.id))).length ≤ limit := by
    rw [List.length_mergeSort, ← List.countP_eq_length_filter]
    exact hlim
  rw [fetch_chunks_without_embedding, List.take_of_length_le hlen]
  exact List.mem_map.mpr ⟨(c.id, c.chunk_text),
    List.mem_map.mpr ⟨c, h2, rfl⟩, rfl⟩

/-- C9: (i) a backfill run on a store in which no chunk has an absent or
empty embedding makes no embedder calls and no store writes and returns
`updated = 0, skipped = 0`; (ii) in particular, after a fully completed run
— one that fetched every missing chunk (`limit` large enough), succeeded,
and skipped nothing — a second consecutive run is such a no-op. -/
theorem backfill_idempotent (e : String → Except String (List ℚ))
    (store : List ChunkRec) (limit : Nat) :
    ((∀ c ∈ store, embMissing c.embedding = false) →
      backfillOnStore e store limit = (store, [], .ok (0, 0)))
    ∧ (∀ (store1 : List ChunkRec) (ev1 : List BFEvent) (u : Nat),
        store.countP (fun c => embMissing c.embedding) ≤ limit →
        (∀ t v, e t = .ok v → v ≠ []) →
        backfillOnStore e store limit = (store1, ev1, .ok (u, 0)) →
        backfillOnStore e store1 limit = (store1, [], .ok (0, 0))) := by
  constructor
  · exact backfill_noop e store limit
  · intro store1 ev1 u hlim hv hrun
    apply backfill_noop
    exact bfLoop_store_complete e hv (fetch_chunks_without_embedding store limit)
      store 0 0 [] store1 ev1 u 0 hrun rfl (fetch_complete store limit hlim)

theorem backfill_idempotent_witness :
    backfillOnStore (fun _ => .ok [(1 : ℚ)])
      [⟨1, "doc.pdf", "fixed_size", "hello", Jsonb.arr [JVal.num 1]⟩] 50 =
      ([⟨1, "doc.pdf", "fixed_size", "hello", Jsonb.arr [JVal.num 1]⟩], [], .ok (0, 0)) :=
  (backfill_idempotent (fun _ => .ok [(1 : ℚ)]) backfillWitnessStore 50).2
    [⟨1, "doc.pdf", "fixed_size", "hello", Jsonb.arr [JVal.num 1]⟩]
    [.embedCall 1 "hello", .writeCall 1 [1]] 1
    (by decide)
    (fun t v h => by
      injection h with h
      exact h ▸ (by simp))
    (by
      rw [backfillOnStore,
        show fetch_chunks_without_embedding backfillWitnessStore 50 = [(1, "hello")] from by
          simp [fetch_chunks_without_embedding, backfillWitnessStore, embMissing]]
      rfl)
/-- `dropWhile` is idempotent. -/
theorem dropWhile_dropWhile (p : Char → Bool) (l : List Char) :
    (l.dropWhile p).dropWhile p = l.dropWhile p := by
  induction l with
  | nil => rfl
  | cons c rest ih =>
    by_cases h : p c
    · simp [List.dropWhile_cons_of_pos h, ih]
    · simp [List.dropWhile_cons_of_neg h, h]

/-- A string equal to its own strip is unchanged by each one-sided pass. -/
theorem pyStrip_parts (s : List Char) (h : pyStrip s = s) :
    s.dropWhile pySpace = s ∧ s.reverse.dropWhile pySpace = s.reverse := by
  rw [pyStrip] at h
  have h1 : (s.dropWhile pySpace).length ≤ s.length :=
    (List.dropWhile_suffix pySpace).length_le
  have h2 : (((s.dropWhile pySpace).reverse.dropWhile pySpace)).length ≤
      (s.dropWhile pySpace).length := by
    have := (List.dropWhile_suffix (l := (s.dropWhile pySpace).reverse) pySpace).length_le
    simpa using this
  have hlen : (((s.dropWhile pySpace).reverse.dropWhile pySpace)).length = s.length := by
    have := congrArg List.length h
    simpa using this
  have hd1 : s.dropWhile pySpace = s := by
    have hsub : List.Sublist (s.dropWhile pySpace) s :=
      (List.dropWhile_suffix pySpace).sublist
    exact hsub.eq_of_length (by omega)
  refine ⟨hd1, ?_⟩
  have hd2 : (s.dropWhile pySpace).reverse.dropWhile pySpace = (s.dropWhile pySpace).reverse := by
    have hsub : List.Sublist ((s.dropWhile pySpace).reverse.dropWhile pySpace)
        (s.dropWhile pySpace).reverse :=
      (List.dropWhile_suffix pySpace).sublist
    exact hsub.eq_of_length (by simp; omega)
  rw [hd1] at hd2
  exact hd2

/-- Conversely, a string unchanged by each one-sided pass equals its strip. -/
theorem pyStrip_of_parts (s : List Char) (h1 : s.dropWhile pySpace = s)
    (h2 : s.reverse.dropWhile pySpace = s.reverse) : pyStrip s = s := by
  rw [pyStrip, h1, h2, List.reverse_reverse]

/-- Stripping is idempotent. -/
theorem pyStrip_idem (s : List Char) : pyStrip (pyStrip s) = pyStrip s := by
  apply pyStrip_of_parts
  · -- front: the head of the stripped string is the head of `dropWhile` on `s`
    cases ht : pyStrip s with
    | nil => rfl
    | cons c t2 =>
      rw [pyStrip] at ht
      obtain ⟨pre, hpre⟩ :=
        List.dropWhile_suffix (l := (s.dropWhile pySpace).reverse) pySpace
      have hd1 : s.dropWhile pySpace =
          ((s.dropWhile pySpace).reverse.dropWhile pySpace).reverse ++ pre.reverse := by
        have := congrArg List.reverse hpre
        simpa using this.symm
      rw [ht] at hd1
      have hne : s.dropWhile pySpace ≠ [] := by rw [hd1]; simp
      have hhead := List.head_dropWhile_not pySpace s hne
      have hq : (s.dropWhile pySpace).head? = some c := by rw [hd1]; rfl
      have hq2 : (s.dropWhile pySpace).head? = some ((s.dropWhile pySpace).head hne) :=
        List.head?_eq_head hne
      have hc : (s.dropWhile pySpace).head hne = c := by
        rw [hq2] at hq
        exact (Option.some.inj hq)
      rw [hc] at hhead
      exact List.dropWhile_cons_of_neg (by simp [hhead])
  · -- back: the reverse of the stripped string is itself a `dropWhile` image
    rw [pyStrip, List.reverse_reverse]
    exact dropWhile_dropWhile pySpace _

/-- Stripping never lengthens a string. -/
theorem pyStrip_length_le (s : List Char) : (pyStrip s).length ≤ s.length := by
  rw [pyStrip]
  have h1 : (s.dropWhile pySpace).length ≤ s.length :=
    (List.dropWhile_suffix pySpace).length_le
  have h2 : ((s.dropWhile pySpace).reverse.dropWhile pySpace).length ≤
      (s.dropWhile pySpace).reverse.length :=
    (List.dropWhile_suffix pySpace).length_le
  simp only [List.length_reverse] at h2 ⊢
  omega

/-- `dropWhile` is the identity on a list whose head it rejects, even after
appending: it stops at the first character. -/
theorem dropWhile_append_self (p : Char → Bool) (u v : List Char)
    (hu : u.dropWhile p = u) (hne : u ≠ []) : (u ++ v).dropWhile p = u ++ v := by
  cases u with
  | nil => exact absurd rfl hne
  | cons c tu =>
    have hc : p c = false := by
      by_cases h : p c
      · exfalso
        rw [List.dropWhile_cons_of_pos h] at hu
        have := congrArg List.length hu
        have hle : (tu.dropWhile p).length ≤ tu.length :=
          (List.dropWhile_suffix p).length_le
        simp at this
        omega
      · exact Bool.eq_false_iff.mpr h
    simp only [List.cons_append]
    exact List.dropWhile_cons_of_neg (by simp [hc])

/-- Joining two stripped, non-empty strings with a single space yields a
string that stripping leaves unchanged. -/
theorem pyStrip_join (u v : List Char) (hu : pyStrip u = u) (hnu : u ≠ [])
    (hv : pyStrip v = v) (hnv : v ≠ []) :
    pyStrip (u ++ ' ' :: v) = u ++ ' ' :: v := by
  obtain ⟨hu1, -⟩ := pyStrip_parts u hu
  obtain ⟨-, hv2⟩ := pyStrip_parts v hv
  apply pyStrip_of_parts
  · exact dropWhile_append_self pySpace u (' ' :: v) hu1 hnu
  · have hrev : (u ++ ' ' :: v).reverse = v.reverse ++ ' ' :: u.reverse := by
      simp
    rw [hrev]
    exact dropWhile_append_self pySpace v.reverse (' ' :: u.reverse) hv2 (by simpa using hnv)

/-- Every part produced by the force-split loop is stripped, non-empty and
no longer than `max_chars`. -/
theorem hardSplitF_spec (m : Nat) :
    ∀ (fuel : Nat) (s : List Char), ∀ c ∈ hardSplitF m fuel s,
      pyStrip c = c ∧ c ≠ [] ∧ c.length ≤ m := by
  intro fuel
  induction fuel with
  | zero =>
    intro s c hc
    cases s with
    | nil => cases hc
    | cons a t => cases hc
  | succ f ih =>
    intro s c hc
    cases s with
    | nil => cases hc
    | cons a t =>
      rw [hardSplitF] at hc
      rcases List.mem_append.mp hc with hl | hr
      · by_cases hp : pyStrip ((a :: t).take m) = []
        · rw [if_pos hp] at hl
          cases hl
        · rw [if_neg hp] at hl
          rcases List.mem_singleton.mp hl with rfl
          refine ⟨pyStrip_idem _, hp, ?_⟩
          have h1 := pyStrip_length_le ((a :: t).take m)
          have h2 : ((a :: t).take m).length ≤ m := by
            simp [List.length_take]
          omega
      · exact ih ((a :: t).drop m) c hr

/-- Every part of `hardSplit` is stripped, non-empty and bounded. -/
theorem hardSplit_spec (m : Nat) (s : List Char) :
    ∀ c ∈ hardSplit m s, pyStrip c = c ∧ c ≠ [] ∧ c.length ≤ m :=
  hardSplitF_spec m s.length s

/-- Loop invariant for the packing loop: if every already-emitted chunk is
stripped, non-empty and bounded by `max_chars`, and the accumulator is empty
or stripped, non-empty and bounded, then every chunk of the final output is
stripped, non-empty and bounded. -/
theorem sbLoop_bound (m : Nat) :
    ∀ (ss chunks : List (List Char)) (cur : List Char),
    (∀ c ∈ chunks, pyStrip c = c ∧ c ≠ [] ∧ c.length ≤ m) →
    (cur = [] ∨ (pyStrip cur = cur ∧ cur ≠ [] ∧ cur.length ≤ m)) →
    ∀ c ∈ sbLoop m ss chunks cur, pyStrip c = c ∧ c ≠ [] ∧ c.length ≤ m := by
  intro ss
  induction ss with
  | nil =>
    intro chunks cur hch hcur c hc
    rw [sbLoop] at hc
    rcases hcur with rfl | hcur
    · rw [if_pos rfl] at hc
      exact hch c hc
    · rw [if_neg hcur.2.1] at hc
      rcases List.mem_append.mp hc with hl | hr
      · exact hch c hl
      · rcases List.mem_singleton.mp hr with rfl
        exact ⟨pyStrip_idem cur, by rw [hcur.1]; exact hcur.2.1, by rw [hcur.1]; exact hcur.2.2⟩
  | cons s0 rest ih =>
    intro chunks cur hch hcur c hc
    rw [sbLoop] at hc
    by_cases hS : pyStrip s0 = []
    · rw [if_pos hS] at hc
      exact ih chunks cur hch hcur c hc
    · rw [if_neg hS] at hc
      by_cases hB : m < (pyStrip s0).length
      · rw [if_pos hB] at hc
        refine ih _ [] ?_ (Or.inl rfl) c hc
        intro d hd
        rcases List.mem_append.mp hd with hl | hr
        · rcases hcur with rfl | hcur
          · rw [if_pos rfl] at hl
            exact hch d hl
          · rw [if_neg hcur.2.1] at hl
            rcases List.mem_append.mp hl with hll | hlr
            · exact hch d hll
            · rcases List.mem_singleton.mp hlr with rfl
              exact ⟨pyStrip_idem cur, by rw [hcur.1]; exact hcur.2.1,
                by rw [hcur.1]; exact hcur.2.2⟩
        · exact hardSplit_spec m (pyStrip s0) d hr
      · rw [if_neg hB] at hc
        by_cases hC : cur ≠ [] ∧ m < cur.length + 1 + (pyStrip s0).length
        · rw [if_pos hC] at hc
          have hcur' := hcur.resolve_left (by simpa using hC.1)
          refine ih _ (pyStrip s0) ?_ (Or.inr ⟨pyStrip_idem s0, hS, by omega⟩) c hc
          intro d hd
          rcases List.mem_append.mp hd with hl | hr
          · exact hch d hl
          · rcases List.mem_singleton.mp hr with rfl
            exact ⟨pyStrip_idem cur, by rw [hcur'.1]; exact hcur'.2.1,
              by rw [hcur'.1]; exact hcur'.2.2⟩
        · rw [if_neg hC] at hc
          by_cases hE : cur = []
          · rw [if_pos hE] at hc
            exact ih chunks _ hch (Or.inr ⟨pyStrip_idem s0, hS, by omega⟩) c hc
          · rw [if_neg hE] at hc
            have hcur' := hcur.resolve_left hE
            have hlen : cur.length + 1 + (pyStrip s0).length ≤ m := by
              rcases not_and_or.mp hC with h | h
              · exact absurd hE (by simpa using h)
              · omega
            have hjoin := pyStrip_join cur (pyStrip s0) hcur'.1 hE (pyStrip_idem s0) hS
            refine ih chunks _ hch (Or.inr ⟨?_, ?_, ?_⟩) c hc
            · rw [hjoin]
              exact hjoin
            · rw [hjoin]
              simp [hE]
            · rw [hjoin]
              simp only [List.length_append, List.length_cons]
              omega

/-- The packing loop only ever appends to the already-emitted chunk list. -/
theorem sbLoop_acc (m : Nat) :
    ∀ (ss chunks : List (List Char)) (cur : List Char),
    sbLoop m ss chunks cur = chunks ++ sbLoop m ss [] cur := by
  intro ss
  induction ss with
  | nil =>
    intro chunks cur
    rw [sbLoop, sbLoop]
    by_cases hE : cur = []
    · simp [hE]
    · simp [hE]
  | cons s0 rest ih =>
    intro chunks cur
    rw [sbLoop, sbLoop]
    by_cases hS : pyStrip s0 = []
    · simp only [if_pos hS]
      exact ih chunks cur
    · simp only [if_neg hS]
      by_cases hB : m < (pyStrip s0).length
      · simp only [if_pos hB, List.nil_append]
        rw [ih ((if cur = [] then chunks else chunks ++ [pyStrip cur]) ++
            hardSplit m (pyStrip s0)) [],
          ih ((if cur = [] then [] else [pyStrip cur]) ++ hardSplit m (pyStrip s0)) []]
        by_cases hE : cur = []
        · simp [hE]
        · simp [hE]
      · simp only [if_neg hB]
        by_cases hC : cur ≠ [] ∧ m < cur.length + 1 + (pyStrip s0).length
        · simp only [if_pos hC, List.nil_append]
          rw [ih (chunks ++ [pyStrip cur]) (pyStrip s0), ih [pyStrip cur] (pyStrip s0)]
          simp
        · simp only [if_neg hC]
          exact ih chunks _

/-- Chunks already emitted stay in the loop's output. -/
theorem sbLoop_mem_acc (m : Nat) (ss chunks : List (List Char)) (cur c : List Char)
    (hc : c ∈ chunks) : c ∈ sbLoop m ss chunks cur := by
  rw [sbLoop_acc]
  exact List.mem_append_left _ hc

/-- An accumulator holding a stripped sentence of length exactly `max_chars`
is always flushed intact: it appears as a chunk of the loop's output. -/
theorem sbLoop_keep (m : Nat) (hm : 0 < m) :
    ∀ (ss chunks : List (List Char)) (cur : List Char),
    pyStrip cur = cur → cur.length = m → cur ∈ sbLoop m ss chunks cur := by
  intro ss
  induction ss with
  | nil =>
    intro chunks cur hcur hlen
    rw [sbLoop]
    have hne : cur ≠ [] := by
      intro h
      rw [h] at hlen
      simp at hlen
      omega
    rw [if_neg hne, hcur]
    exact List.mem_append_right _ (List.mem_singleton.mpr rfl)
  | cons s0 rest ih =>
    intro chunks cur hcur hlen
    have hne : cur ≠ [] := by
      intro h
      rw [h] at hlen
      simp at hlen
      omega
    rw [sbLoop]
    by_cases hS : pyStrip s0 = []
    · rw [if_pos hS]
      exact ih chunks cur hcur hlen
    · rw [if_neg hS]
      have hslen : 1 ≤ (pyStrip s0).length := by
        cases h : pyStrip s0 with
        | nil => exact absurd h hS
        | cons a t => simp
      by_cases hB : m < (pyStrip s0).length
      · rw [if_pos hB]
        apply sbLoop_mem_acc
        rw [if_neg hne, hcur]
        exact List.mem_append_left _ (List.mem_append_right _ (List.mem_singleton.mpr rfl))
      · rw [if_neg hB]
        have hC : cur ≠ [] ∧ m < cur.length + 1 + (pyStrip s0).length := ⟨hne, by omega⟩
        rw [if_pos hC]
        apply sbLoop_mem_acc
        rw [hcur]
        exact List.mem_append_right _ (List.mem_singleton.mpr rfl)

/-- A sentence whose stripped form has length exactly `max_chars` is emitted
intact as one of the output chunks — it is never force-split nor merged. -/
theorem sbLoop_sentence (m : Nat) (hm : 0 < m) :
    ∀ (ss chunks : List (List Char)) (cur : List Char) (s0 : List Char),
    s0 ∈ ss → (pyStrip s0).length = m → pyStrip s0 ∈ sbLoop m ss chunks cur := by
  intro ss
  induction ss with
  | nil =>
    intro chunks cur s0 h
    cases h
  | cons t0 rest ih =>
    intro chunks cur s0 hmem hlen
    rcases List.mem_cons.mp hmem with rfl | htail
    · -- the sentence is at the head: it becomes the new accumulator
      have hS : pyStrip s0 ≠ [] := by
        intro h
        rw [h] at hlen
        simp at hlen
        omega
      rw [sbLoop, if_neg hS]
      have hB : ¬ m < (pyStrip s0).length := by omega
      rw [if_neg hB]
      by_cases hE : cur = []
      · have hC : ¬ (cur ≠ [] ∧ m < cur.length + 1 + (pyStrip s0).length) := by
          simp [hE]
        rw [if_neg hC, if_pos hE]
        exact sbLoop_keep m hm rest chunks (pyStrip s0) (pyStrip_idem s0) hlen
      · have hC : cur ≠ [] ∧ m < cur.length + 1 + (pyStrip s0).length := by
          constructor
          · exact hE
          · have : 1 ≤ cur.length := by
              cases h : cur with
              | nil => exact absurd h hE
              | cons a t => simp
            omega
        rw [if_pos hC]
        exact sbLoop_keep m hm rest _ (pyStrip s0) (pyStrip_idem s0) hlen
    · -- the sentence is further on: every branch recurses
      rw [sbLoop]
      by_cases hS : pyStrip t0 = []
      · rw [if_pos hS]
        exact ih chunks cur s0 htail hlen
      · rw [if_neg hS]
        by_cases hB : m < (pyStrip t0).length
        · rw [if_pos hB]
          exact ih _ [] s0 htail hlen
        · rw [if_neg hB]
          by_cases hC : cur ≠ [] ∧ m < cur.length + 1 + (pyStrip t0).length
          · rw [if_pos hC]
            exact ih _ _ s0 htail hlen
          · rw [if_neg hC]
            exact ih _ _ s0 htail hlen

/-- C7: for every text and `max_chars > 0`, every chunk of
`chunk_by_sentences(text, max_chars)` is trimmed, non-empty and of length at
most `max_chars` (force-split parts of oversized sentences included), and a
sentence whose trimmed length is exactly `max_chars` is never force-split:
it appears intact as a chunk of the output. -/
theorem chunk_by_sentences_bounds (text : List Char) (m : Nat) (hm : 0 < m) :
    (∀ c ∈ chunk_by_sentences text m, pyStrip c = c ∧ c ≠ [] ∧ c.length ≤ m)
    ∧ (∀ s0 ∈ splitSentences (joinSpace (pySplitWs text)),
        (pyStrip s0).length = m → pyStrip s0 ∈ chunk_by_sentences text m) := by
  rw [chunk_by_sentences]
  by_cases hcl : joinSpace (pySplitWs text) = []
  · rw [if_pos hcl]
    constructor
    · intro c hc
      cases hc
    · intro s0 hs0 hlen
      rw [hcl] at hs0
      have : s0 = [] := by
        have : splitSentences ([] : List Char) = [[]] := rfl
        rw [this] at hs0
        simpa using hs0
      rw [this] at hlen
      simp [pyStrip] at hlen
      omega
  · rw [if_neg hcl]
    constructor
    · exact sbLoop_bound m (splitSentences (joinSpace (pySplitWs text))) [] []
        (by intro c hc; cases hc) (Or.inl rfl)
    · intro s0 hs0 hlen
      exact sbLoop_sentence m hm (splitSentences (joinSpace (pySplitWs text))) [] [] s0 hs0 hlen

theorem chunk_by_sentences_bounds_witness :
    (∀ c ∈ chunk_by_sentences "Hi. World is big. X.".data 10,
      pyStrip c = c ∧ c ≠ [] ∧ c.length ≤ 10)
    ∧ (∀ s0 ∈ splitSentences (joinSpace (pySplitWs "Hi. World is big. X.".data)),
        (pyStrip s0).length = 10 → pyStrip s0 ∈ chunk_by_sentences "Hi. World is big. X.".data 10) :=
  chunk_by_sentences_bounds "Hi. World is big. X.".data 10 (by decide)
